import Mathlib

/-!
Verification of the code-generation and rewriting core of `vite-plugin-vue`.

Text is modelled as `List Char` (the character list underlying a JS string).
JS machine strings are indexed by code units; all of the scripts and offsets
handled by the rewriter are produced by the parser from the same string, so
the character-list model is index-faithful for the claims proved here.

The embedded functions:
  * `rewriteAsIIFE`, `transformScript`, `injectIntoComponent` — from
    `src/injection.ts` (the AST insertion-point rewriter).  The Babel parse
    and AST traversal that produce the matched ranges are external to the
    rewriting algorithm; the list of matched `[start, end)` ranges is
    therefore an explicit input of the embedded `transformScript`.
  * `attrsToQuery`, `styleRequest`, `genStyleCode` and the source-map
    composition of `transformMain` — from `src/main.ts`.
-/

namespace VitePluginVue

/-- Program text: the character list of a JS string. -/
abbrev Str := List Char

/-- Character data of a Lean string literal. -/
def str (s : String) : Str := s.data

/-- Clamped index conversion of `Array.prototype.slice` / `String.prototype.slice`:
a negative index counts from the end, a too-large index clamps to the length. -/
def jsIndex (len : Nat) (i : Int) : Nat :=
  if i < 0 then ((len : Int) + i).toNat else min i.toNat len

/-- JS `s.slice(a, b)`: the characters from resolved index `a` (inclusive)
to resolved index `b` (exclusive). -/
def jsSlice (s : Str) (a b : Int) : Str :=
  (s.take (jsIndex s.length b)).drop (jsIndex s.length a)

/-! ### JSON string serialization (`JSON.stringify` on a string value) -/

/-- Lower-case hexadecimal digit. -/
def hexDigitLc (n : Nat) : Char :=
  if n < 10 then Char.ofNat ('0'.toNat + n) else Char.ofNat ('a'.toNat + n - 10)

/-- Escaping of one character inside a JSON string literal. -/
def jsonEscapeChar (c : Char) : Str :=
  if c = '"' then ['\\', '"']
  else if c = '\\' then ['\\', '\\']
  else if c = '\n' then ['\\', 'n']
  else if c = '\r' then ['\\', 'r']
  else if c = '\t' then ['\\', 't']
  else if c = '\x08' then ['\\', 'b']
  else if c = '\x0c' then ['\\', 'f']
  else if c.toNat < 0x20 then
    ['\\', 'u', '0', '0', hexDigitLc (c.toNat / 16), hexDigitLc (c.toNat % 16)]
  else [c]

/-- `JSON.stringify` of a string: double quotes around the escaped characters. -/
def jsonStringify (s : Str) : Str :=
  '"' :: (s.map jsonEscapeChar).flatten ++ ['"']

/-! ### `rewriteAsIIFE` (src/injection.ts lines 36-59) -/

/-- Return value of an attached hook: JS `string | string[]`. -/
inductive HookRet where
  | str (s : Str)
  | arr (l : List Str)

/-- The lines a hook return value contributes after `.flat(Infinity)`. -/
def HookRet.lines : HookRet → List Str
  | .str s => [s]
  | .arr l => l

/-- An attached hook: a function from binding-expression text to one or
several statement strings. -/
abbrev Hook := Str → HookRet

/-- `rewriteAsIIFE(props, hooks)`: with no properties and no hooks it is the
identity; otherwise it wraps the expression in an IIFE that `Object.assign`s
the properties, runs each hook on the local binding and returns the binding. -/
def rewriteAsIIFE (props : List (Str × Str)) (hooks : List Hook) : Str → Str :=
  if props.length = 0 ∧ hooks.length = 0 then
    fun expr => expr
  else
    let propsToAssign :=
      List.intercalate (str ", ")
        (props.map fun p => jsonStringify p.1 ++ str ": " ++ p.2)
    fun expr =>
      List.intercalate (str "\n")
        ([str "(() => \x7b",
          str "const sfc_main = /*#__PURE__*/ Object.assign(" ++ expr ++
            str ", \x7b " ++ propsToAssign ++ str " \x7d)"] ++
         ((hooks.map fun f => f (str "sfc_main")).map HookRet.lines).flatten ++
         [str "return sfc_main", str "\x7d)()"])

/-! ### `transformScript` (src/injection.ts lines 61-117) -/

/-- A matched insertion range `[start, end)` in the script text.  The source
calls the second field `end`; that word is reserved in Lean, so it is named
`stop` here. -/
structure InsertionContext where
  start : Int
  stop : Int
deriving Repr, DecidableEq

/-- Descending comparison on start offsets: the order produced by the
comparator `(a, b) => b.start - a.start`. -/
def startGe (a b : InsertionContext) : Prop := b.start ≤ a.start

instance : DecidableRel startGe := fun a b =>
  inferInstanceAs (Decidable (b.start ≤ a.start))

instance : IsTotal InsertionContext startGe :=
  ⟨fun a b => (Int.le_total b.start a.start).imp id id⟩

instance : IsTrans InsertionContext startGe :=
  ⟨fun _ _ _ h1 h2 => le_trans h2 h1⟩

/-- The sort `insertions.sort((a, b) => b.start - a.start)`.
`Array.prototype.sort` is stable, and a stable sort is determined
extensionally by the comparator, so a stable insertion sort models it. -/
def sortDesc (l : List InsertionContext) : List InsertionContext :=
  List.insertionSort startGe l

/-- The interlacing test of the validation loop, with `later` the entry at
index `i` and `prior` the entry at index `i + 1` of the sorted array. -/
def interlacing (later prior : InsertionContext) : Bool :=
  decide (later.start < prior.stop) && decide (later.stop > prior.start)

/-- The validation walk over adjacent pairs of the sorted array, returning
the first offending `(prior, later)` pair, if any. -/
def findInterlacing : List InsertionContext → Option (InsertionContext × InsertionContext)
  | a :: b :: rest =>
    if interlacing a b then some (b, a) else findInterlacing (b :: rest)
  | _ => none

/-- Rendering of one insertion context inside the error message. -/
def renderInsertion (i : InsertionContext) : Str :=
  str "\x7b\"start\":" ++ (toString i.start).data ++
  str ",\"end\":" ++ (toString i.stop).data ++ str "\x7d"

/-- The error message `Interlacing insertion points: ...`. -/
def interlacingMessage (pq : InsertionContext × InsertionContext) : Str :=
  str "Interlacing insertion points: [" ++ renderInsertion pq.1 ++
  str "," ++ renderInsertion pq.2 ++ str "]"

/-- The inner `for (const other of insertions)` loop: add `delta` to the
recorded end of every pending range whose end is at or after `stop`,
breaking at the first range that does not qualify. -/
def adjustEnds (delta : Int) (stop : Int) : List InsertionContext → List InsertionContext
  | [] => []
  | other :: rest =>
    if other.stop ≥ stop then
      { other with stop := other.stop + delta } :: adjustEnds delta stop rest
    else
      other :: rest

/-- The `while (insertions.length)` rewrite loop.  The loop runs exactly once
per pending insertion (`shift()` removes one entry each iteration and
`adjustEnds` preserves the count), so it is driven by a fuel initialized to
the number of pending insertions. -/
def rewriteLoopFuel (rewriter : Str → Str) : Nat → Str → List InsertionContext → Str
  | _, script, [] => script
  | 0, script, _ :: _ => script
  | Nat.succ n, script, insertion :: rest =>
    let content := jsSlice script insertion.start insertion.stop
    let replacement := rewriter content
    let delta : Int := (replacement.length : Int) - (content.length : Int)
    rewriteLoopFuel rewriter n
      (jsSlice script 0 insertion.start ++ replacement ++
        jsSlice script insertion.stop script.length)
      (adjustEnds delta insertion.stop rest)

/-- `transformScript(script, matcher, rewriter)` with the ranges matched by
the Babel traversal given explicitly: count the matches, sort them by start
descending, fail on an interlacing adjacent pair, otherwise rewrite from the
rightmost start leftwards and return the count and the rewritten text. -/
def transformScript (script : Str) (insertions : List InsertionContext)
    (rewriter : Str → Str) : Except Str (Nat × Str) :=
  let count := insertions.length
  let sorted := sortDesc insertions
  match findInterlacing sorted with
  | some pq => .error (interlacingMessage pq)
  | none => .ok (count, rewriteLoopFuel rewriter sorted.length script sorted)

/-! ### `injectIntoComponent` (src/injection.ts lines 119-149) -/

/-- `injectIntoComponent(script, props, hooks)`, with the ranges matched by
policy 1 (`defineComponent(...)` calls) and policy 2 (the default-export
declaration) given explicitly.  A policy that matched at least once wins;
with no match anywhere a fresh default-export statement is produced. -/
def injectIntoComponent (script : Str)
    (defineComponentMatches exportDefaultMatches : List InsertionContext)
    (props : List (Str × Str)) (hooks : List Hook) : Except Str Str :=
  let rewriter := rewriteAsIIFE props hooks
  match transformScript script defineComponentMatches rewriter with
  | .error e => .error e
  | .ok (numInjections, injectedScript) =>
    if numInjections ≠ 0 then .ok injectedScript
    else
      match transformScript script exportDefaultMatches rewriter with
      | .error e => .error e
      | .ok (numInjections2, injectedScript2) =>
        if numInjections2 ≠ 0 then .ok injectedScript2
        else .ok (str "export default " ++ rewriter (str "\x7b\x7d"))

/-! ### Reference implementation for the refinement claim

Following the spec's words: "a reference implementation that builds the
result in a single left-to-right pass over the sorted non-overlapping
ranges, splicing each rewritten substring between the unchanged gaps". -/

/-- Ascending comparison on start offsets, for the reference sort. -/
def startLe (a b : InsertionContext) : Prop := a.start ≤ b.start

instance : DecidableRel startLe := fun a b =>
  inferInstanceAs (Decidable (a.start ≤ b.start))

instance : IsTotal InsertionContext startLe :=
  ⟨fun a b => (Int.le_total a.start b.start).imp id id⟩

instance : IsTrans InsertionContext startLe :=
  ⟨fun _ _ _ h1 h2 => le_trans h1 h2⟩

/-- One left-to-right pass: emit the unchanged gap before each range, then
the rewritten range, and finally the unchanged tail. -/
def singlePassSplice (script : Str) (rewriter : Str → Str) :
    Int → List InsertionContext → Str
  | pos, [] => jsSlice script pos script.length
  | pos, r :: rest =>
    jsSlice script pos r.start ++ rewriter (jsSlice script r.start r.stop) ++
      singlePassSplice script rewriter r.stop rest

/-- The reference rewriter: sort the ranges ascending by start and splice in
a single pass. -/
def referenceRewrite (script : Str) (insertions : List InsertionContext)
    (rewriter : Str → Str) : Str :=
  singlePassSplice script rewriter 0 (List.insertionSort startLe insertions)

/-! ### `attrsToQuery` (src/main.ts lines 474-510) -/

/-- A block attribute value: JS `string | true`. -/
inductive AttrVal where
  | text (s : Str)
  | tru
deriving Repr, DecidableEq

/-- JS truthiness of an attribute value (the empty string is falsy). -/
def AttrVal.truthy : AttrVal → Bool
  | .tru => true
  | .text s => !s.isEmpty

/-- Template-literal interpolation of an attribute value (`true` prints as
the word `true`). -/
def AttrVal.interp : AttrVal → Str
  | .tru => VitePluginVue.str "true"
  | .text s => s

/-- The characters `encodeURIComponent` leaves unescaped. -/
def uriUnreserved (c : Char) : Bool :=
  c.isAlpha || c.isDigit || (c ∈ ['-', '_', '.', '!', '~', '*', '\'', '(', ')'])

/-- Upper-case hexadecimal digit. -/
def hexDigitUc (n : Nat) : Char :=
  if n < 10 then Char.ofNat ('0'.toNat + n) else Char.ofNat ('A'.toNat + n - 10)

/-- UTF-8 encoding of one character. -/
def utf8Bytes (c : Char) : List Nat :=
  let n := c.toNat
  if n < 0x80 then [n]
  else if n < 0x800 then [0xC0 + n / 64, 0x80 + n % 64]
  else if n < 0x10000 then
    [0xE0 + n / 4096, 0x80 + (n / 64) % 64, 0x80 + n % 64]
  else
    [0xF0 + n / 262144, 0x80 + (n / 4096) % 64, 0x80 + (n / 64) % 64, 0x80 + n % 64]

/-- `encodeURIComponent` on one character. -/
def pctEncodeChar (c : Char) : Str :=
  if uriUnreserved c then [c]
  else (utf8Bytes c).foldr
    (fun b acc => '%' :: hexDigitUc (b / 16) :: hexDigitUc (b % 16) :: acc) []

/-- `encodeURIComponent` on a string. -/
def encodeURIComponent (s : Str) : Str := (s.map pctEncodeChar).flatten

/-- The reserved attribute names that are never echoed into a query
(src/main.ts `ignoreList`). -/
def ignoreList : List Str :=
  [str "id", str "index", str "src", str "type", str "lang", str "module",
   str "scoped", str "generic"]

/-- A block's attribute map: JS objects hold their string keys in insertion
order and without duplicates, so the map is a key-ordered association list. -/
abbrev Attrs := List (Str × AttrVal)

/-- First (only) value bound to a key. -/
def attrsLookup (attrs : Attrs) (name : Str) : Option AttrVal :=
  (attrs.find? fun p => p.1 = name).map Prod.snd

/-- One step of the `for (const name in attrs)` loop of `attrsToQuery`:
a reserved name is skipped, every other attribute is appended
percent-encoded as `&name` or `&name=value`. -/
def attrQueryStep (query : Str) (nv : Str × AttrVal) : Str :=
  if ignoreList.contains nv.1 then query
  else
    query ++ '&' :: encodeURIComponent nv.1 ++
      (if nv.2.truthy then '=' :: encodeURIComponent nv.2.interp else [])

/-- The `for (const name in attrs)` loop of `attrsToQuery`. -/
def attrsQueryLoop (attrs : Attrs) : Str :=
  attrs.foldl attrQueryStep []

/-- Interpolation of the fallback language (JS prints `undefined` when the
parameter was omitted). -/
def interpFallback : Option Str → Str
  | some s => s
  | none => str "undefined"

/-- The trailing language parameter of `attrsToQuery`: appended when the
fallback or a declared `lang` attribute is truthy; a declared `lang` key wins
unless `forceLangFallback` is set. -/
def attrsLangSuffix (attrs : Attrs) (langFallback : Option Str)
    (forceLangFallback : Bool) : Str :=
  let declared := attrsLookup attrs (str "lang")
  if langFallback.any (fun s => !s.isEmpty) || declared.any AttrVal.truthy then
    match declared with
    | some v =>
      if forceLangFallback then str "&lang." ++ interpFallback langFallback
      else str "&lang." ++ v.interp
    | none => str "&lang." ++ interpFallback langFallback
  else []

/-- `attrsToQuery(attrs, langFallback, forceLangFallback)`: the encoded
non-reserved attributes followed by the trailing language parameter. -/
def attrsToQuery (attrs : Attrs) (langFallback : Option Str)
    (forceLangFallback : Bool) : Str :=
  attrsQueryLoop attrs ++ attrsLangSuffix attrs langFallback forceLangFallback

/-! ### Style virtual-module requests (src/main.ts lines 345-433) -/

/-- The `module` attribute of a style block: JS `string | boolean | undefined`. -/
inductive ModuleVal where
  | undef
  | bool (b : Bool)
  | text (s : Str)
deriving Repr, DecidableEq

/-- JS truthiness of the `module` attribute. -/
def ModuleVal.truthy : ModuleVal → Bool
  | .undef => false
  | .bool b => b
  | .text s => !s.isEmpty

/-- A style region of the descriptor. -/
structure SFCStyleBlock where
  src : Option Str
  scopedAttr : Bool   -- `scoped` in the source; `scoped` is reserved in Lean
  module : ModuleVal
  attrs : Attrs

/-- The virtual-module request built for style region `i`
(src/main.ts lines 364-376): path, then
`?vue&type=style&index=<i>`, src marker, custom-element inline marker,
scoped marker, then the attribute query with trailing language parameter. -/
def styleRequest (descriptorId filename : Str) (asCustomElement : Bool)
    (i : Nat) (style : SFCStyleBlock) : Str :=
  let src := style.src.getD filename
  let attrsQuery := attrsToQuery style.attrs (some (str "css")) false
  let srcQuery :=
    match style.src with
    | some _ => if style.scopedAttr then str "&src=" ++ descriptorId else str "&src=true"
    | none => []
  let directQuery := if asCustomElement then str "&inline" else []
  let scopedQuery := if style.scopedAttr then str "&scoped=" ++ descriptorId else []
  let query := str "?vue&type=style&index=" ++ (toString i).data ++
    srcQuery ++ directQuery ++ scopedQuery
  src ++ query ++ attrsQuery

/-- Word character of the regex `\w`. -/
def isWordChar (c : Char) : Bool := c.isAlphanum || c = '_'

/-- `request.replace(/\.(\w+)$/, '.module.$1')`: inject `.module` before a
final extension. -/
def cssModuleRequest (request : Str) : Str :=
  let rev := request.reverse
  let w := rev.takeWhile isWordChar
  match rev.dropWhile isWordChar with
  | '.' :: rest =>
    if w.isEmpty then request
    else rest.reverse ++ str ".module." ++ w.reverse
  | _ => request

/-- `genCSSModulesCode(index, request, moduleName)`: the import line bound to
`style<index>` and the exposed-name-to-variable entry. -/
def genCSSModulesCode (index : Nat) (request : Str) (moduleName : ModuleVal) :
    Str × (Str × Str) :=
  let styleVar := str "style" ++ (toString index).data
  let exposedName := match moduleName with
    | .text s => s
    | _ => str "$style"
  let moduleRequest := cssModuleRequest request
  (str "\nimport " ++ styleVar ++ str " from " ++ jsonStringify moduleRequest,
   (exposedName, styleVar))

/-- `Object.assign` of one key/value pair into a JS object: an existing key
keeps its position and gets the new value, a new key is appended. -/
def mapAssign (m : List (Str × Str)) (kv : Str × Str) : List (Str × Str) :=
  if m.any (fun p => p.1 = kv.1) then
    m.map fun p => if p.1 = kv.1 then (p.1, kv.2) else p
  else m ++ [kv]

/-- The `for` loop of `genStyleCode` over the style regions: accumulates the
emitted import lines and the CSS-module name map (`none` while the map was
never initialized), and throws on a CSS-module style in custom-element
mode. -/
def genStyleLoop (descriptorId filename : Str) (asCustomElement : Bool) :
    Nat → List SFCStyleBlock → Str → Option (List (Str × Str)) →
    Except Str (Str × Option (List (Str × Str)))
  | _, [], stylesCode, cssModulesMap => .ok (stylesCode, cssModulesMap)
  | i, style :: rest, stylesCode, cssModulesMap =>
    let styleRequestStr := styleRequest descriptorId filename asCustomElement i style
    if style.module.truthy then
      if asCustomElement then
        .error (str "<style module> is not supported in custom elements mode.")
      else
        let imported := genCSSModulesCode i styleRequestStr style.module
        genStyleLoop descriptorId filename asCustomElement (i + 1) rest
          (stylesCode ++ imported.1)
          (some (mapAssign (cssModulesMap.getD []) imported.2))
    else
      let importLine :=
        if asCustomElement then
          str "\nimport _style_" ++ (toString i).data ++ str " from " ++
            jsonStringify styleRequestStr
        else str "\nimport " ++ jsonStringify styleRequestStr
      genStyleLoop descriptorId filename asCustomElement (i + 1) rest
        (stylesCode ++ importLine) cssModulesMap

/-- Result of `genStyleCode`: the style import code and the properties it
pushes onto `attachedProps`. -/
structure StyleGenResult where
  stylesCode : Str
  attachedProps : List (Str × Str)
deriving DecidableEq

/-- `genStyleCode(descriptor, ..., asCustomElement, attachedProps)`:
run the loop over the style regions, then push the `styles` array property in
custom-element mode and the `__cssModules` property when a module map was
accumulated. -/
def genStyleCode (styles : List SFCStyleBlock) (descriptorId filename : Str)
    (asCustomElement : Bool) : Except Str StyleGenResult :=
  match (if styles.length ≠ 0 then
          genStyleLoop descriptorId filename asCustomElement 0 styles [] none
        else .ok ([], none)) with
  | .error e => .error e
  | .ok (stylesCode, cssModulesMap) =>
    let props :=
      if styles.length ≠ 0 ∧ asCustomElement then
        [(str "styles",
          str "[" ++
            List.intercalate (str ",")
              ((List.range styles.length).map fun i => str "_style_" ++ (toString i).data) ++
          str "]")]
      else []
    match cssModulesMap with
    | none => .ok ⟨stylesCode, props⟩
    | some m =>
      let mappingCode :=
        (m.foldl
          (fun code kv => code ++ '"' :: kv.1 ++ str "\":" ++ kv.2 ++ str ",\n")
          (str "\x7b\n")) ++ str "\x7d"
      .ok ⟨stylesCode ++ str "\nconst cssModules = " ++ mappingCode,
           props ++ [(str "__cssModules", str "cssModules")]⟩

/-! ### Source-map composition (src/main.ts lines 172-212) -/

/-- One mapping of a source map, as enumerated by `eachMapping`:
a generated position, and an original position with its source (which is
`null`/`none` for a mapping with no known originating source). -/
structure SourceMapMapping where
  source : Option Str
  originalLine : Int
  originalColumn : Int
  generatedLine : Int
  generatedColumn : Int
deriving Repr, DecidableEq

/-- `scriptCode.match(/\r?\n/g)?.length ?? 0`: the number of line-break
matches; each `\n` is one match, consuming a directly preceding `\r`. -/
def countLineBreakMatches : Str → Nat
  | '\r' :: '\n' :: rest => countLineBreakMatches rest + 1
  | '\n' :: rest => countLineBreakMatches rest + 1
  | _ :: rest => countLineBreakMatches rest
  | [] => 0

/-- The source-map concatenation of `transformMain`: start from the script
map's mappings, compute `offset` as the line-break count of the script text
plus one, and re-add every template mapping that has a known source with its
generated line shifted down by `offset` (a template mapping with no known
source is dropped). -/
def composeMappings (scriptMappings templateMappings : List SourceMapMapping)
    (scriptCode : Str) : List SourceMapMapping :=
  let offset : Int := (countLineBreakMatches scriptCode : Int) + 1
  scriptMappings ++
    templateMappings.filterMap fun m =>
      match m.source with
      | none => none
      | some _ => some { m with generatedLine := m.generatedLine + offset }

/-! ### Script language metadata (src/main.ts lines 217-250) -/

/-- A script region: its language tag and external reference. -/
structure SFCScriptBlock where
  lang : Option Str
  src : Option Str

/-- The descriptor fields the language computations read. -/
structure SFCDescriptor where
  script : Option SFCScriptBlock
  scriptSetup : Option SFCScriptBlock

/-- JS truthiness of an optional string (`undefined` and `''` are falsy). -/
def truthyStrOpt : Option Str → Bool
  | none => false
  | some s => !s.isEmpty

/-- JS `a || b` on optional strings. -/
def jsOr (a b : Option Str) : Option Str :=
  if truthyStrOpt a then a else b

/-- `descriptor.scriptSetup?.lang || descriptor.script?.lang` — the language
tag that decides whether esbuild lowering runs (src/main.ts line 219). -/
def loweringLang (d : SFCDescriptor) : Option Str :=
  jsOr (d.scriptSetup.bind SFCScriptBlock.lang) (d.script.bind SFCScriptBlock.lang)

/-- `descriptor.script?.lang || descriptor.scriptSetup?.lang || 'js'` — the
language tag returned as `meta.vite.lang` (src/main.ts line 247). -/
def metaViteLang (d : SFCDescriptor) : Str :=
  (jsOr (jsOr (d.script.bind SFCScriptBlock.lang) (d.scriptSetup.bind SFCScriptBlock.lang))
    (some (str "js"))).getD []

/-! ## Helper lemmas -/

/-- Folding the attribute-query step from any accumulator ignores entries
with reserved names. -/
lemma attrsQueryLoop_foldl_filter (attrs : Attrs) : ∀ (q : Str),
    attrs.foldl attrQueryStep q =
      (attrs.filter fun p => !(ignoreList.contains p.1)).foldl attrQueryStep q := by
  induction attrs with
  | nil => intro q; rfl
  | cons nv rest ih =>
    intro q
    rw [List.foldl_cons, List.filter_cons]
    cases h : ignoreList.contains nv.1 with
    | true =>
      have hstep : attrQueryStep q nv = q := by
        unfold attrQueryStep
        exact if_pos h
      simp only [h, Bool.not_true, if_false, Bool.false_eq_true, hstep]
      exact ih q
    | false =>
      simp only [h, Bool.not_false, if_true, List.foldl_cons]
      exact ih (attrQueryStep q nv)

/-- Reserved attribute names contribute nothing to the attribute-query loop. -/
lemma attrsQueryLoop_filter (attrs : Attrs) :
    attrsQueryLoop attrs =
      attrsQueryLoop (attrs.filter fun p => !(ignoreList.contains p.1)) := by
  unfold attrsQueryLoop
  exact attrsQueryLoop_foldl_filter attrs []

/-- The style-generation loop fails as soon as it reaches a CSS-module style
in custom-element mode, whatever was accumulated before. -/
lemma genStyleLoop_module_error (descriptorId filename : Str) :
    ∀ (styles : List SFCStyleBlock) (i : Nat) (acc : Str)
      (m : Option (List (Str × Str))),
      (∃ s ∈ styles, s.module.truthy = true) →
      genStyleLoop descriptorId filename true i styles acc m =
        .error (str "<style module> is not supported in custom elements mode.") := by
  intro styles
  induction styles with
  | nil => rintro i acc m ⟨x, hx, _⟩; exact absurd hx (List.not_mem_nil x)
  | cons s rest ih =>
    rintro i acc m ⟨x, hx, hmod⟩
    by_cases hs : s.module.truthy
    · simp [genStyleLoop, hs]
    · rcases List.mem_cons.mp hx with rfl | hx'
      · exact absurd hmod hs
      · simp only [genStyleLoop, hs, if_false, Bool.false_eq_true]
        exact ih (i + 1) _ _ ⟨x, hx', hmod⟩

/-- `b`'s range lies entirely at or before `a`'s start — the relation that
holds between successive entries of the sorted range list once validation
has passed. -/
def disjBelow (a b : InsertionContext) : Prop := b.stop ≤ a.start

/-- Strictly-increasing start offsets. -/
def startLt (a b : InsertionContext) : Prop := a.start < b.start

instance : IsAntisymm InsertionContext startLt :=
  ⟨fun _ _ h1 h2 => absurd (lt_trans h1 h2) (lt_irrefl _)⟩

/-- A validated, descending-by-start list of well-formed ranges is pairwise
disjoint: every later entry ends at or before every earlier entry starts. -/
lemma pairwise_disjBelow : ∀ l : List InsertionContext,
    List.Pairwise startGe l → (∀ x ∈ l, x.start < x.stop) →
    findInterlacing l = none → List.Pairwise disjBelow l := by
  intro l
  induction l with
  | nil => intro _ _ _; exact List.Pairwise.nil
  | cons a rest ih =>
    intro hsorted hwf hfi
    rcases List.pairwise_cons.mp hsorted with ⟨hha, hrest⟩
    cases rest with
    | nil => exact List.pairwise_singleton _ _
    | cons b t =>
      have hint : interlacing a b = false := by
        by_contra h
        rw [Bool.not_eq_false] at h
        rw [findInterlacing, if_pos h] at hfi
        exact Option.some_ne_none _ hfi
      have hrec : findInterlacing (b :: t) = none := by
        rw [findInterlacing, if_neg (by rw [hint]; exact Bool.false_ne_true)] at hfi
        exact hfi
      have hab : disjBelow a b := by
        have h1 : ¬(a.start < b.stop ∧ a.stop > b.start) := by
          intro ⟨hx, hy⟩
          have : interlacing a b = true := by
            unfold interlacing
            rw [decide_eq_true hx, decide_eq_true hy]
            rfl
          rw [this] at hint
          exact Bool.noConfusion hint
        have hge : b.start ≤ a.start := hha b (List.mem_cons_self b t)
        have hstop : a.stop > b.start := lt_of_le_of_lt hge (hwf a (List.mem_cons_self a _))
        unfold disjBelow
        by_contra hc
        exact h1 ⟨lt_of_not_le hc, hstop⟩
      have hwf' : ∀ x ∈ b :: t, x.start < x.stop := fun x hx =>
        hwf x (List.mem_cons_of_mem a hx)
      have hpw := ih hrest hwf' hrec
      refine List.pairwise_cons.mpr ⟨?_, hpw⟩
      intro x hx
      rcases List.mem_cons.mp hx with rfl | hx'
      · exact hab
      · have hxb : disjBelow b x := (List.pairwise_cons.mp hpw).1 x hx'
        calc x.stop ≤ b.start := hxb
          _ ≤ b.stop := le_of_lt (hwf' b (List.mem_cons_self b t))
          _ ≤ a.start := hab

/-- Two distinct members of a pairwise-disjoint list are disjoint one way
or the other. -/
lemma pairwise_disjBelow_mem {l : List InsertionContext}
    (hpw : List.Pairwise disjBelow l) {a : InsertionContext} (ha : a ∈ l)
    {b : InsertionContext} (hb : b ∈ l) (hne : a ≠ b) :
    disjBelow a b ∨ disjBelow b a := by
  have hsym : Symmetric fun x y => disjBelow x y ∨ disjBelow y x :=
    fun x y h => h.symm
  exact (hpw.imp fun h => Or.inl h).forall hsym ha hb hne

/-- Both slice indices in range: `jsIndex` is plain truncation. -/
lemma jsIndex_eq_toNat {len : Nat} {i : Int} (h0 : 0 ≤ i) (hl : i ≤ (len : Int)) :
    jsIndex len i = i.toNat := by
  unfold jsIndex
  rw [if_neg (not_lt.mpr h0)]
  exact min_eq_left (by omega)

/-- In-range slicing is take-then-drop. -/
lemma jsSlice_eq_take_drop {s : Str} {a b : Int} (ha0 : 0 ≤ a)
    (hal : a ≤ (s.length : Int)) (hb0 : 0 ≤ b) (hbl : b ≤ (s.length : Int)) :
    jsSlice s a b = (s.take b.toNat).drop a.toNat := by
  unfold jsSlice
  rw [jsIndex_eq_toNat ha0 hal, jsIndex_eq_toNat hb0 hbl]

/-- Slicing from 0 is `take`. -/
lemma jsSlice_zero_left {s : Str} {n : Int} (h0 : 0 ≤ n)
    (hl : n ≤ (s.length : Int)) : jsSlice s 0 n = s.take n.toNat := by
  rw [jsSlice_eq_take_drop (le_refl 0) (Int.natCast_nonneg _) h0 hl]
  simp

/-- The full slice of a string is itself. -/
lemma jsSlice_full (s : Str) : jsSlice s 0 (s.length : Int) = s := by
  rw [jsSlice_zero_left (Int.natCast_nonneg _) (le_refl _)]
  simp

/-- A slice that stays inside the kept prefix ignores what was appended
after it. -/
lemma jsSlice_take_append {s z : Str} {n : Nat} (hn : n ≤ s.length)
    {p q : Int} (hp0 : 0 ≤ p) (hpn : p ≤ (n : Int)) (hq0 : 0 ≤ q)
    (hqn : q ≤ (n : Int)) :
    jsSlice (s.take n ++ z) p q = jsSlice s p q := by
  have htl : (s.take n).length = n := by
    simp [List.length_take, min_eq_left hn]
  have hlen : (s.take n ++ z).length = n + z.length := by
    simp [List.length_append, htl]
  have hpl : p ≤ ((s.take n ++ z).length : Int) := by rw [hlen]; push_cast; omega
  have hql : q ≤ ((s.take n ++ z).length : Int) := by rw [hlen]; push_cast; omega
  have hpl' : p ≤ (s.length : Int) := by
    calc p ≤ (n : Int) := hpn
      _ ≤ (s.length : Int) := by exact_mod_cast hn
  have hql' : q ≤ (s.length : Int) := by
    calc q ≤ (n : Int) := hqn
      _ ≤ (s.length : Int) := by exact_mod_cast hn
  rw [jsSlice_eq_take_drop hp0 hpl hq0 hql, jsSlice_eq_take_drop hp0 hpl' hq0 hql']
  rw [List.take_append_of_le_length (by rw [htl]; omega),
    List.take_take, min_eq_left (by omega : q.toNat ≤ n)]

/-- A full-length slice of a spliced string splits into the in-prefix slice
followed by the appended suffix. -/
lemma jsSlice_take_append_full {s z : Str} {n : Nat} (hn : n ≤ s.length)
    {pos : Int} (h0 : 0 ≤ pos) (hpn : pos ≤ (n : Int)) :
    jsSlice (s.take n ++ z) pos ((s.take n ++ z).length : Int) =
      jsSlice s pos (n : Int) ++ z := by
  have htl : (s.take n).length = n := by
    simp [List.length_take, min_eq_left hn]
  have hpl : pos ≤ ((s.take n ++ z).length : Int) := by
    rw [List.length_append, htl]; push_cast; omega
  have hnl : (n : Int) ≤ (s.length : Int) := by exact_mod_cast hn
  rw [jsSlice_eq_take_drop h0 hpl (Int.natCast_nonneg _) (le_refl _),
    jsSlice_eq_take_drop h0 (le_trans hpn hnl) (Int.natCast_nonneg _) hnl,
    Int.toNat_natCast, Int.toNat_natCast, List.take_length,
    List.drop_append_of_le_length (by rw [htl]; omega)]

/-- The end-adjustment pass breaks immediately when the first pending range
ends strictly before the cut point. -/
lemma adjustEnds_cons_lt (delta e : Int) (x : InsertionContext)
    (t : List InsertionContext) (h : x.stop < e) :
    adjustEnds delta e (x :: t) = x :: t := by
  unfold adjustEnds
  rw [if_neg (not_le.mpr h)]

/-- Running the single left-to-right pass over ranges that live inside the
unmodified prefix of a spliced string is the same as running it on the
original string with the splice's own range appended as a final step. -/
lemma singlePassSplice_snoc (script : Str) (rewriter : Str → Str)
    (r : InsertionContext) (h0 : 0 ≤ r.start) (h1 : r.start ≤ r.stop)
    (h2 : r.stop ≤ (script.length : Int)) :
    ∀ (xs : List InsertionContext) (pos : Int), 0 ≤ pos → pos ≤ r.start →
      (∀ x ∈ xs, 0 ≤ x.start ∧ x.start ≤ x.stop ∧ x.stop ≤ r.start) →
      singlePassSplice
        (script.take r.start.toNat ++
          (rewriter (jsSlice script r.start r.stop) ++
            jsSlice script r.stop script.length))
        rewriter pos xs =
      singlePassSplice script rewriter pos (xs ++ [r]) := by
  have hrn : r.start.toNat ≤ script.length := by omega
  have hcast : ((r.start.toNat : Nat) : Int) = r.start := Int.toNat_of_nonneg h0
  intro xs
  induction xs with
  | nil =>
    intro pos hp0 hpr _
    rw [List.nil_append]
    simp only [singlePassSplice]
    rw [jsSlice_take_append_full hrn hp0 (by rw [hcast]; exact hpr), hcast,
      List.append_assoc]
  | cons x t ih =>
    intro pos hp0 hpr hb
    obtain ⟨hx0, hx1, hx2⟩ := hb x (List.mem_cons_self x t)
    have hxt : ∀ y ∈ t, 0 ≤ y.start ∧ y.start ≤ y.stop ∧ y.stop ≤ r.start :=
      fun y hy => hb y (List.mem_cons_of_mem x hy)
    rw [List.cons_append]
    simp only [singlePassSplice]
    rw [jsSlice_take_append hrn hp0 (by rw [hcast]; exact hpr) hx0
        (by rw [hcast]; exact le_trans hx1 hx2),
      jsSlice_take_append hrn hx0 (by rw [hcast]; exact le_trans hx1 hx2)
        (le_trans hx0 hx1) (by rw [hcast]; exact hx2),
      ih x.stop (le_trans hx0 hx1) hx2 hxt]

/-- On a validated (pairwise-disjoint, well-formed) pending list with enough
fuel, the rightmost-first rewrite loop equals the single left-to-right pass
over the same ranges in reverse (ascending) order. -/
lemma rewriteLoopFuel_eq_singlePass (rewriter : Str → Str) :
    ∀ (l : List InsertionContext) (script : Str) (fuel : Nat),
      l.length ≤ fuel →
      List.Pairwise disjBelow l →
      (∀ r ∈ l, 0 ≤ r.start ∧ r.start < r.stop ∧ r.stop ≤ (script.length : Int)) →
      rewriteLoopFuel rewriter fuel script l =
        singlePassSplice script rewriter 0 l.reverse := by
  intro l
  induction l with
  | nil =>
    intro script fuel _ _ _
    have hnil : rewriteLoopFuel rewriter fuel script [] = script := by
      cases fuel <;> rfl
    rw [hnil, List.reverse_nil]
    exact (jsSlice_full script).symm
  | cons r rest ih =>
    intro script fuel hfuel hpw hwf
    obtain ⟨hr0, hr1, hr2⟩ := hwf r (List.mem_cons_self r rest)
    cases fuel with
    | zero => exact absurd hfuel (by simp)
    | succ n =>
      rcases List.pairwise_cons.mp hpw with ⟨hhead, htail⟩
      have hcast : ((r.start.toNat : Nat) : Int) = r.start := Int.toNat_of_nonneg hr0
      have hrn : r.start.toNat ≤ script.length := by omega
      have hadj : adjustEnds
          ((rewriter (jsSlice script r.start r.stop)).length -
            ((jsSlice script r.start r.stop).length : Int)) r.stop rest = rest := by
        cases rest with
        | nil => rfl
        | cons x t =>
          exact adjustEnds_cons_lt _ _ _ _
            (lt_of_le_of_lt (hhead x (List.mem_cons_self x t)) hr1)
      have hstep : rewriteLoopFuel rewriter (Nat.succ n) script (r :: rest) =
          rewriteLoopFuel rewriter n
            (jsSlice script 0 r.start ++ rewriter (jsSlice script r.start r.stop) ++
              jsSlice script r.stop script.length) rest := by
        show rewriteLoopFuel rewriter n _
            (adjustEnds _ r.stop rest) = _
        rw [hadj]
      rw [hstep]
      have hsplit : jsSlice script 0 r.start = script.take r.start.toNat :=
        jsSlice_zero_left hr0 (le_trans (le_of_lt hr1) hr2)
      have hlen' : (r.start.toNat : Int) ≤
          ((jsSlice script 0 r.start ++ rewriter (jsSlice script r.start r.stop) ++
            jsSlice script r.stop script.length).length : Int) := by
        rw [hsplit, List.append_assoc, List.length_append, List.length_take,
          min_eq_left hrn]
        push_cast
        omega
      have hwf' : ∀ x ∈ rest, 0 ≤ x.start ∧ x.start < x.stop ∧
          x.stop ≤ ((jsSlice script 0 r.start ++
            rewriter (jsSlice script r.start r.stop) ++
            jsSlice script r.stop script.length).length : Int) := by
        intro x hx
        obtain ⟨h0, h1, _⟩ := hwf x (List.mem_cons_of_mem r hx)
        refine ⟨h0, h1, ?_⟩
        calc x.stop ≤ r.start := hhead x hx
          _ = (r.start.toNat : Int) := hcast.symm
          _ ≤ _ := hlen'
      rw [ih _ n (by simpa using Nat.lt_succ_iff.mp (Nat.lt_of_lt_of_le
            (Nat.lt_succ_of_le (le_refl _)) hfuel)) htail hwf']
      rw [hsplit, List.append_assoc]
      rw [singlePassSplice_snoc script rewriter r hr0 (le_of_lt hr1) hr2
        rest.reverse 0 (le_refl 0) hr0 ?_]
      · rw [← List.reverse_cons]
      · intro x hx
        have hx' := List.mem_reverse.mp hx
        obtain ⟨h0, h1, _⟩ := hwf x (List.mem_cons_of_mem r hx')
        exact ⟨h0, le_of_lt h1, hhead x hx'⟩

/-- With well-formed ranges and passing validation, the ascending sort is the
reverse of the descending sort. -/
lemma sortAsc_eq_reverse_sortDesc (l : List InsertionContext)
    (hwf : ∀ x ∈ l, x.start < x.stop)
    (hfi : findInterlacing (sortDesc l) = none) :
    List.insertionSort startLe l = (sortDesc l).reverse := by
  have hpermD := List.perm_insertionSort startGe l
  have hpermA := List.perm_insertionSort startLe l
  have hsorted : List.Pairwise startGe (sortDesc l) :=
    List.sorted_insertionSort startGe l
  have hwfD : ∀ x ∈ sortDesc l, x.start < x.stop := fun x hx =>
    hwf x (hpermD.mem_iff.mp hx)
  have hpw := pairwise_disjBelow _ hsorted hwfD hfi
  have hstrictD : List.Pairwise (fun a b => startLt b a) (sortDesc l) := by
    refine hpw.imp_of_mem ?_
    intro a b _ hb hab
    exact lt_of_lt_of_le (hwfD b hb) hab
  have hstrictRev : List.Pairwise startLt ((sortDesc l).reverse) :=
    List.pairwise_reverse.mpr hstrictD
  have hsortedA : List.Pairwise startLe (List.insertionSort startLe l) :=
    List.sorted_insertionSort startLe l
  have hnodupD : ((sortDesc l).map InsertionContext.start).Nodup :=
    List.pairwise_map.mpr (hstrictD.imp fun h => ne_of_gt h)
  have hpermMap : ((List.insertionSort startLe l).map InsertionContext.start).Perm
      ((sortDesc l).map InsertionContext.start) :=
    (hpermA.trans hpermD.symm).map _
  have hnodupA : ((List.insertionSort startLe l).map InsertionContext.start).Nodup :=
    hpermMap.symm.nodup hnodupD
  have hneA : List.Pairwise (fun a b : InsertionContext => a.start ≠ b.start)
      (List.insertionSort startLe l) := List.pairwise_map.mp hnodupA
  have hstrictA : List.Pairwise startLt (List.insertionSort startLe l) :=
    (hsortedA.and hneA).imp fun h => lt_of_le_of_ne h.1 h.2
  have hperm : (List.insertionSort startLe l).Perm ((sortDesc l).reverse) :=
    hpermA.trans (hpermD.symm.trans (List.reverse_perm _).symm)
  exact List.eq_of_perm_of_sorted hperm hstrictA hstrictRev

/-! ## Claims -/

/-- C1: the claim says nested matched ranges pass validation and the outer
range's end is shifted by the inner rewrite's delta.  The code instead
raises the interlacing error on every overlapping pair, nesting included:
for the nested ranges `[0, 10)` and `[2, 6)` the rewriter throws.  This
contradicts the rewrite loop's own enclosure-adjustment step (src/injection.ts
lines 104-112, "Update other insertion points that encloses this one"),
which is unreachable under that validation — the claim matches the code's
documented intent and the validation condition is the slip. -/
theorem C1_nested_ranges_raise_interlacing_error :
    ∃ e, transformScript (str "abcdefghij") [⟨0, 10⟩, ⟨2, 6⟩] (fun s => s) =
      .error e :=
  ⟨_, rfl⟩

/-- C2 (counterexample): for a script with no policy-1 and no policy-2
matches and no props/hooks, `injectIntoComponent` returns exactly
`export default \x7b\x7d`; the original script text is not preserved in the
output (it does not even occur in it), contradicting the claim that the
output is the input with a default-export statement appended. -/
theorem C2_counterexample_script_discarded :
    injectIntoComponent (str "const a = 1") [] [] [] [] =
      .ok (str "export default \x7b\x7d") ∧
    ¬ List.IsInfix (str "const a = 1") (str "export default \x7b\x7d") := by
  constructor
  · rfl
  · decide

/-- C2 (amended): for every script on which policy 1 and policy 2 match
nothing, the output of `injectIntoComponent` is exactly the synthesized
statement `export default ` followed by the rewrite of the empty object
literal (the bare `\x7b\x7d` when there are no properties and no hooks); the
original script text is discarded, not preserved. -/
theorem C2_no_match_output_is_synthesized_export (script : Str)
    (props : List (Str × Str)) (hooks : List Hook) :
    injectIntoComponent script [] [] props hooks =
      .ok (str "export default " ++ rewriteAsIIFE props hooks (str "\x7b\x7d")) :=
  rfl

/-- C3 (counterexample): the script text `a\nb` has `N = 1` line breaks; the
template mapping at generated line 1 is re-emitted at generated line
`N + 2 = 3`, not `N + 1 = 2` as the claim states. -/
theorem C3_counterexample_offset_is_breaks_plus_one :
    composeMappings [] [⟨some (str "t.vue"), 3, 2, 1, 0⟩] (str "a\nb") =
      [⟨some (str "t.vue"), 3, 2, 3, 0⟩] ∧
    ¬ (⟨some (str "t.vue"), 3, 2, 2, 0⟩ : SourceMapMapping) ∈
        composeMappings [] [⟨some (str "t.vue"), 3, 2, 1, 0⟩] (str "a\nb") := by
  constructor
  · rfl
  · decide

/-- C3 (amended): for a generated script text with `N` line-break matches,
the composed map consists of the script map's mappings together with, for
every template mapping with a known source, the same mapping with its
generated line increased by exactly `N + 1` (column and original position
unchanged, so a template mapping at generated line 1 appears at generated
line `N + 2`); every template mapping with an unknown source is dropped. -/
theorem C3_composition_shifts_by_breaks_plus_one
    (scriptMappings templateMappings : List SourceMapMapping) (scriptCode : Str)
    (x : SourceMapMapping) :
    x ∈ composeMappings scriptMappings templateMappings scriptCode ↔
      x ∈ scriptMappings ∨
      ∃ m ∈ templateMappings, m.source ≠ none ∧
        x = { m with
              generatedLine :=
                m.generatedLine + ((countLineBreakMatches scriptCode : Int) + 1) } := by
  simp only [composeMappings, List.mem_append, List.mem_filterMap]
  apply or_congr Iff.rfl
  constructor
  · rintro ⟨m, hm, hf⟩
    cases hsrc : m.source with
    | none => rw [hsrc] at hf; simp at hf
    | some s =>
      rw [hsrc] at hf
      simp only [Option.some.injEq] at hf
      refine ⟨m, hm, by simp [hsrc], ?_⟩
      rw [hsrc]
      exact hf.symm
  · rintro ⟨m, hm, hsrc, rfl⟩
    refine ⟨m, hm, ?_⟩
    obtain ⟨s, hs⟩ := Option.ne_none_iff_exists'.mp hsrc
    rw [hs]

/-- C4 (counterexample): for a scoped style in custom-element mode the
emitted request places the `&inline` marker before the `&scoped` marker,
not after it as the claim's fixed order states. -/
theorem C4_counterexample_inline_before_scoped :
    styleRequest (str "xyz") (str "f.vue") true 0 ⟨none, true, .undef, []⟩ =
      str "f.vue?vue&type=style&index=0&inline&scoped=xyz&lang.css" ∧
    styleRequest (str "xyz") (str "f.vue") true 0 ⟨none, true, .undef, []⟩ ≠
      str "f.vue?vue&type=style&index=0&scoped=xyz&inline&lang.css" := by
  constructor
  · rfl
  · decide

/-- C4 (amended): every style request has its query parameters in the fixed
order: the type and index parameters first, then the src marker, then the
custom-element inline marker, then the scoped marker, then the region's
non-reserved attributes in declaration order, with the language parameter
last. -/
theorem C4_style_query_parameter_order (descriptorId filename : Str)
    (style : SFCStyleBlock) (asCustomElement : Bool) (i : Nat) :
    styleRequest descriptorId filename asCustomElement i style =
      style.src.getD filename ++
      str "?vue&type=style&index=" ++ (toString i).data ++
      (match style.src with
       | some _ =>
         if style.scopedAttr then str "&src=" ++ descriptorId else str "&src=true"
       | none => []) ++
      (if asCustomElement then str "&inline" else []) ++
      (if style.scopedAttr then str "&scoped=" ++ descriptorId else []) ++
      attrsQueryLoop style.attrs ++
      attrsLangSuffix style.attrs (some (str "css")) false := by
  simp [styleRequest, attrsToQuery, List.append_assoc]

/-- C5: whenever the matched ranges contain a pair that partially overlaps
without either containing the other, `transformScript` raises the
structural-inconsistency (interlacing) error and produces no rewritten
output — the validation runs before any rewriting, so no partially
rewritten text is ever returned. -/
theorem C5_partial_overlap_raises_error (script : Str) (rewriter : Str → Str)
    (insertions : List InsertionContext) (a b : InsertionContext)
    (hwf : ∀ r ∈ insertions, r.start < r.stop)
    (ha : a ∈ insertions) (hb : b ∈ insertions)
    (hov : a.start < b.stop ∧ b.start < a.stop)
    (hnab : ¬(a.start ≤ b.start ∧ b.stop ≤ a.stop))
    (hnba : ¬(b.start ≤ a.start ∧ a.stop ≤ b.stop)) :
    ∃ e, transformScript script insertions rewriter = .error e := by
  cases hfi : findInterlacing (sortDesc insertions) with
  | some pq =>
    refine ⟨interlacingMessage pq, ?_⟩
    simp only [transformScript, hfi]
  | none =>
    exfalso
    have hperm := List.perm_insertionSort startGe insertions
    have hsorted : List.Pairwise startGe (sortDesc insertions) :=
      List.sorted_insertionSort startGe insertions
    have hwf' : ∀ x ∈ sortDesc insertions, x.start < x.stop := fun x hx =>
      hwf x (hperm.mem_iff.mp hx)
    have hpw := pairwise_disjBelow _ hsorted hwf' hfi
    have hne : a ≠ b := by
      rintro rfl
      exact hnab ⟨le_refl _, le_refl _⟩
    rcases pairwise_disjBelow_mem hpw (hperm.mem_iff.mpr ha)
        (hperm.mem_iff.mpr hb) hne with h | h
    · exact absurd hov.1 (not_lt.mpr h)
    · exact absurd hov.2 (not_lt.mpr h)

/-- C5 (witness): the partially overlapping ranges `[0, 5)` and `[3, 8)`. -/
theorem C5_partial_overlap_raises_error_witness :
    ∃ e, transformScript (str "abcdefgh") [⟨0, 5⟩, ⟨3, 8⟩] (fun s => s) =
      .error e :=
  C5_partial_overlap_raises_error _ _ _ ⟨0, 5⟩ ⟨3, 8⟩ (by decide) (by decide)
    (by decide) (by decide) (by decide) (by decide)

/-- C6: for every script and every set of well-formed matched ranges that
passes the non-interlacing validation, processing the ranges
rightmost-start-first with end-offset adjustment yields byte-identical
output to the reference single-pass left-to-right splice over the
ascending-sorted ranges. -/
theorem C6_rightmost_first_refines_single_pass (script : Str)
    (insertions : List InsertionContext) (rewriter : Str → Str)
    (hwf : ∀ r ∈ insertions,
      0 ≤ r.start ∧ r.start < r.stop ∧ r.stop ≤ (script.length : Int))
    (hok : findInterlacing (sortDesc insertions) = none) :
    transformScript script insertions rewriter =
      .ok (insertions.length, referenceRewrite script insertions rewriter) := by
  simp only [transformScript, hok]
  have hperm := List.perm_insertionSort startGe insertions
  have hwf' : ∀ r ∈ sortDesc insertions,
      0 ≤ r.start ∧ r.start < r.stop ∧ r.stop ≤ (script.length : Int) :=
    fun r hr => hwf r (hperm.mem_iff.mp hr)
  have hpw := pairwise_disjBelow _ (List.sorted_insertionSort startGe insertions)
    (fun x hx => (hwf' x hx).2.1) hok
  rw [rewriteLoopFuel_eq_singlePass rewriter (sortDesc insertions) script _
    (le_refl _) hpw hwf']
  unfold referenceRewrite
  rw [sortAsc_eq_reverse_sortDesc insertions (fun x hx => (hwf x hx).2.1) hok]

/-- C6 (witness): two disjoint ranges wrapped in parentheses. -/
theorem C6_rightmost_first_refines_single_pass_witness :
    transformScript (str "hello world") [⟨0, 5⟩, ⟨6, 11⟩]
        (fun s => '(' :: s ++ [')']) =
      .ok (2, referenceRewrite (str "hello world") [⟨0, 5⟩, ⟨6, 11⟩]
        (fun s => '(' :: s ++ [')'])) :=
  C6_rightmost_first_refines_single_pass _ _ _ (by decide) (by decide)

/-- C7: the query encoder never echoes a reserved-name attribute (`id`,
`index`, `src`, `type`, `lang`, `module`, `scoped`, `generic`) into the
query — filtering them out of the attribute map leaves the encoded query
unchanged — and the attribute set `{ id: "x", foo: "bar" }` with fallback
language `css` and force-fallback unset encodes exactly as
`&foo=bar&lang.css`. -/
theorem C7_reserved_attrs_never_echoed :
    (∀ attrs : Attrs,
      attrsQueryLoop attrs =
        attrsQueryLoop (attrs.filter fun p => !(ignoreList.contains p.1))) ∧
    attrsToQuery [(str "id", .text (str "x")), (str "foo", .text (str "bar"))]
        (some (str "css")) false =
      str "&foo=bar&lang.css" := by
  exact ⟨attrsQueryLoop_filter, by decide⟩

/-- C8: with no attached properties and no attached hooks, `rewriteAsIIFE`
is the identity on every expression text, so every matched range is left
unchanged by the rewrite. -/
theorem C8_empty_rewrite_is_identity (expr : Str) :
    rewriteAsIIFE [] [] expr = expr :=
  rfl

/-- C9: a descriptor with at least one CSS-module style compiled in
custom-element mode makes style generation fail with the fatal
configuration error, so no style import code and no assembled module is
produced for such a configuration. -/
theorem C9_css_module_custom_element_error (styles : List SFCStyleBlock)
    (descriptorId filename : Str)
    (h : ∃ s ∈ styles, s.module.truthy = true) :
    genStyleCode styles descriptorId filename true =
      .error (str "<style module> is not supported in custom elements mode.") := by
  have hne : styles.length ≠ 0 := by
    rintro hlen
    rcases h with ⟨x, hx, _⟩
    rw [List.length_eq_zero] at hlen
    subst hlen
    exact absurd hx (List.not_mem_nil x)
  unfold genStyleCode
  rw [if_pos hne, genStyleLoop_module_error descriptorId filename styles 0 [] none h]

/-- C9 (witness): a single CSS-module style under custom-element mode. -/
theorem C9_css_module_custom_element_error_witness :
    genStyleCode [⟨none, false, .bool true, []⟩] (str "xyz") (str "f.vue") true =
      .error (str "<style module> is not supported in custom elements mode.") :=
  C9_css_module_custom_element_error _ _ _ (by decide)

/-- C10: the returned metadata tag `meta.vite.lang` prefers the plain script
region's language tag, then the scriptSetup region's, then `js` — while the
language tag used to decide host-language lowering prefers the scriptSetup
region's tag, the opposite precedence. -/
theorem C10_meta_lang_opposite_precedence (d : SFCDescriptor) :
    (truthyStrOpt (d.script.bind SFCScriptBlock.lang) = true →
      metaViteLang d = (d.script.bind SFCScriptBlock.lang).getD []) ∧
    (truthyStrOpt (d.script.bind SFCScriptBlock.lang) = false →
      truthyStrOpt (d.scriptSetup.bind SFCScriptBlock.lang) = true →
      metaViteLang d = (d.scriptSetup.bind SFCScriptBlock.lang).getD []) ∧
    (truthyStrOpt (d.script.bind SFCScriptBlock.lang) = false →
      truthyStrOpt (d.scriptSetup.bind SFCScriptBlock.lang) = false →
      metaViteLang d = str "js") ∧
    (truthyStrOpt (d.scriptSetup.bind SFCScriptBlock.lang) = true →
      loweringLang d = d.scriptSetup.bind SFCScriptBlock.lang) ∧
    (truthyStrOpt (d.scriptSetup.bind SFCScriptBlock.lang) = false →
      loweringLang d = d.script.bind SFCScriptBlock.lang) := by
  refine ⟨fun h1 => ?_, fun h1 h2 => ?_, fun h1 h2 => ?_, fun h1 => ?_, fun h1 => ?_⟩
  · simp [metaViteLang, jsOr, h1]
  · simp [metaViteLang, jsOr, h1, h2]
  · simp [metaViteLang, jsOr, h1, h2, str]
  · simp [loweringLang, jsOr, h1]
  · simp [loweringLang, jsOr, h1]

/-- C10 (witness): a descriptor declaring script language `ts` and
scriptSetup language `tsx`: the metadata tag is `ts`, the lowering tag is
`tsx`. -/
theorem C10_meta_lang_opposite_precedence_witness :
    metaViteLang ⟨some ⟨some (str "ts"), none⟩, some ⟨some (str "tsx"), none⟩⟩ =
        str "ts" ∧
    loweringLang ⟨some ⟨some (str "ts"), none⟩, some ⟨some (str "tsx"), none⟩⟩ =
        some (str "tsx") :=
  ⟨(C10_meta_lang_opposite_precedence _).1 (by decide),
   (C10_meta_lang_opposite_precedence _).2.2.2.1 (by decide)⟩

end VitePluginVue
